import Mathlib

/-!
Verification of `src/gato_experto.py`, a console tic-tac-toe program whose
opponent consults a persistent knowledge base (a JSON file mapping serialized
board states to recommended moves) and asks the human to teach it a move when
it meets an unknown position.

The Python program is shallowly embedded: the board is a `List Cell`, Python
list indexing is modelled by `pyGet` (including negative-index semantics),
Python exceptions are modelled with `Except`/`Option`, the JSON layer is
modelled at the level of parsed values (`PyVal`), and the interactive input
loops are modelled as functions over the list of lines the user will type.
-/

namespace GatoExperto

/-- A board cell: `"X"` (human), `"O"` (machine) or `" "` (empty), as the
single-character strings used by the Python class `TicTacToe`. -/
inductive Cell where
  | X : Cell
  | O : Cell
  | EMPTY : Cell
deriving DecidableEq, Repr

/-- The single character the Python program stores for each cell value. -/
def cellChar : Cell → Char
  | Cell.X => 'X'
  | Cell.O => 'O'
  | Cell.EMPTY => ' '

/-- Python list indexing `l[i]`: non-negative indices from the front, negative
indices from the back; `none` models the `IndexError` raised out of range. -/
def pyGet (l : List Cell) (i : Int) : Option Cell :=
  let j : Int := if i < 0 then i + l.length else i
  if 0 ≤ j ∧ j < l.length then l.get? j.toNat else none

/-- `TicTacToe.__init__`: the board starts as nine empty cells. -/
def initialBoard : List Cell := List.replicate 9 Cell.EMPTY

/-- `TicTacToe.is_valid_move`: `0 <= position < 9 and self.board[position] == self.EMPTY`.
The conjunction short-circuits, so the cell is read only when the range test
passed; `none` models an uncaught `IndexError` from that read. -/
def is_valid_move (board : List Cell) (position : Int) : Option Bool :=
  if 0 ≤ position ∧ position < 9 then
    match pyGet board position with
    | some c => some (c = Cell.EMPTY)
    | none => none
  else some false

/-- `TicTacToe.apply_move`: `self.board[position] = player`, unconditionally.
Negative positions follow Python's from-the-back indexing. -/
def apply_move (board : List Cell) (position : Int) (player : Cell) : List Cell :=
  let j : Int := if position < 0 then position + board.length else position
  board.set j.toNat player

/-- `TicTacToe.WIN_PATTERNS`: the 8 win lines, in the source's scan order
(rows, then columns, then diagonals). -/
def WIN_PATTERNS : List (Nat × Nat × Nat) :=
  [(0, 1, 2), (3, 4, 5), (6, 7, 8),
   (0, 3, 6), (1, 4, 7), (2, 5, 8),
   (0, 4, 8), (2, 4, 6)]

/-- Cell read used by `check_winner`; the pattern indices are all below 9, so on
the 9-cell boards of the program the default is never taken. -/
def getCell (board : List Cell) (i : Nat) : Cell := board.getD i Cell.EMPTY

/-- One iteration of the `check_winner` loop body:
`self.board[a] == self.board[b] == self.board[c] != self.EMPTY`. -/
def lineWin (board : List Cell) (p : Nat × Nat × Nat) : Option Cell :=
  let a := getCell board p.1
  let b := getCell board p.2.1
  let c := getCell board p.2.2
  if a = b ∧ b = c ∧ c ≠ Cell.EMPTY then some a else none

/-- The `for pattern in self.WIN_PATTERNS` loop: first winning line wins. -/
def scanPatterns (board : List Cell) : List (Nat × Nat × Nat) → Option Cell
  | [] => none
  | p :: rest =>
    match lineWin board p with
    | some m => some m
    | none => scanPatterns board rest

/-- Result of `TicTacToe.check_winner`: a mark string or `"Empate"` (draw);
`Option` carries the Python `None`. -/
inductive Outcome where
  | mark : Cell → Outcome
  | empate : Outcome
deriving DecidableEq, Repr

/-- `TicTacToe.check_winner`: scan the 8 lines; else `"Empate"` when no cell is
empty; else `None`. -/
def check_winner (board : List Cell) : Option Outcome :=
  match scanPatterns board WIN_PATTERNS with
  | some m => some (Outcome.mark m)
  | none => if Cell.EMPTY ∈ board then none else some Outcome.empate

/-- `TicTacToe.board_key`: `"".join(self.board)`. -/
def board_key (board : List Cell) : String := String.mk (board.map cellChar)

/-- `TicTacToe.available_moves`: indices of the empty cells, ascending. -/
def available_moves (board : List Cell) : List Nat :=
  (List.range board.length).filter (fun i => getCell board i = Cell.EMPTY)

/-- A line `p` is fully occupied by mark `m` on `board`. -/
def lineAll (board : List Cell) (m : Cell) (p : Nat × Nat × Nat) : Prop :=
  getCell board p.1 = m ∧ getCell board p.2.1 = m ∧ getCell board p.2.2 = m

instance (board : List Cell) (m : Cell) (p : Nat × Nat × Nat) :
    Decidable (lineAll board m p) := by
  unfold lineAll; infer_instance

/-- Mark `m` wins on `board`: `m` is not the empty cell and some win line is
fully occupied by `m`. -/
def winsLine (board : List Cell) (m : Cell) : Prop :=
  m ≠ Cell.EMPTY ∧ ∃ p ∈ WIN_PATTERNS, lineAll board m p

instance (board : List Cell) (m : Cell) : Decidable (winsLine board m) := by
  unfold winsLine; infer_instance

/-! ### Knowledge base and its persistence

`json.load`/`json.dump` are standard-library code, so the file is modelled at
the level of the parsed JSON value (`PyVal`); the model covers the JSON values
relevant to the knowledge file (strings, integers, booleans, null, arrays,
objects — floats are not produced by `save` and are omitted). -/

/-- A parsed JSON value as Python would hold it. -/
inductive PyVal where
  | pstr : String → PyVal
  | pint : Int → PyVal
  | pbool : Bool → PyVal
  | pnull : PyVal
  | plist : List PyVal → PyVal
  | pobj : List (String × PyVal) → PyVal

/-- The Python exception classes relevant to `KnowledgeBase`. -/
inductive PyError where
  | valueError : PyError
  | typeError : PyError
  | attributeError : PyError
  | osError : PyError
deriving DecidableEq, Repr

/-- Python `str.strip()` (ASCII whitespace model). -/
def pyStrip (s : String) : String :=
  String.mk (((s.data.dropWhile Char.isWhitespace).reverse.dropWhile
    Char.isWhitespace).reverse)

/-- Python `str.isdigit()` (ASCII model): non-empty and all digits. -/
def pyIsDigit (s : String) : Bool :=
  !s.data.isEmpty && s.data.all Char.isDigit

/-- Decimal value of a digit string. -/
def digitsToNat (l : List Char) : Nat :=
  l.foldl (fun n c => 10 * n + (c.toNat - Char.toNat '0')) 0

/-- Python `int(s)` on a string: strip, optional sign, then decimal digits;
anything else raises `ValueError`. -/
def pyIntOfStr (s : String) : Except PyError Int :=
  match (pyStrip s).data with
  | [] => Except.error PyError.valueError
  | '-' :: rest =>
    if !rest.isEmpty && rest.all Char.isDigit then Except.ok (-(digitsToNat rest : Int))
    else Except.error PyError.valueError
  | '+' :: rest =>
    if !rest.isEmpty && rest.all Char.isDigit then Except.ok (digitsToNat rest : Int)
    else Except.error PyError.valueError
  | l =>
    if l.all Char.isDigit then Except.ok (digitsToNat l : Int)
    else Except.error PyError.valueError

/-- Python `int(value)` on a JSON value: ints and bools convert, strings parse
(`ValueError` on failure), and `None`, lists and objects raise `TypeError`. -/
def pyInt : PyVal → Except PyError Int
  | PyVal.pint n => Except.ok n
  | PyVal.pbool b => Except.ok (if b then 1 else 0)
  | PyVal.pstr s => pyIntOfStr s
  | _ => Except.error PyError.typeError

/-- The dict comprehension `{str(key): int(value) for key, value in data.items()}`:
items are converted in order and the first exception aborts the comprehension.
JSON object keys are already strings, so `str(key)` is the identity. -/
def convertItems : List (String × PyVal) → Except PyError (List (String × Int))
  | [] => Except.ok []
  | (k, v) :: rest =>
    match pyInt v with
    | Except.ok n =>
      match convertItems rest with
      | Except.ok m => Except.ok ((k, n) :: m)
      | Except.error e => Except.error e
    | Except.error e => Except.error e

/-- What reading the knowledge file can yield: no file, an `OSError`, text that
is not valid JSON (`json.JSONDecodeError`), or a parsed JSON value. -/
inductive ReadOutcome where
  | absent : ReadOutcome
  | osError : ReadOutcome
  | decodeError : ReadOutcome
  | value : PyVal → ReadOutcome

/-- `KnowledgeBase._load` (with `self.moves = {}` from `__init__`): absent file
keeps the empty mapping; `json.JSONDecodeError`, `OSError` and `ValueError` are
caught and reset the mapping; `data.items()` on a non-object raises an uncaught
`AttributeError`; `int(value)` on a null/list/object raises an uncaught
`TypeError`. -/
def load_moves (r : ReadOutcome) : Except PyError (List (String × Int)) :=
  match r with
  | ReadOutcome.absent => Except.ok []
  | ReadOutcome.osError => Except.ok []
  | ReadOutcome.decodeError => Except.ok []
  | ReadOutcome.value (PyVal.pobj items) =>
    match convertItems items with
    | Except.ok m => Except.ok m
    | Except.error PyError.valueError => Except.ok []
    | Except.error e => Except.error e
  | ReadOutcome.value _ => Except.error PyError.attributeError

/-- Python `dict.get` on the insertion-ordered pair list. -/
def dictGet (m : List (String × Int)) (k : String) : Option Int :=
  match m with
  | [] => none
  | (k', v) :: rest => if k' = k then some v else dictGet rest k

/-- Python `d[k] = v`: replace in place if the key exists, else append. -/
def dictInsert (m : List (String × Int)) (k : String) (v : Int) :
    List (String × Int) :=
  match m with
  | [] => [(k, v)]
  | (k', v') :: rest =>
    if k' = k then (k', v) :: rest else (k', v') :: dictInsert rest k v

/-- `sort_keys=True` in `json.dump`: entries ordered by key. -/
def sortKeys (m : List (String × Int)) : List (String × Int) :=
  List.insertionSort (fun p q => p.1 ≤ q.1) m

/-- The JSON value `KnowledgeBase.save` writes: an object of the mapping's
pairs with keys sorted. -/
def save_value (m : List (String × Int)) : PyVal :=
  PyVal.pobj ((sortKeys m).map (fun p => (p.1, PyVal.pint p.2)))

/-- The mutable state of a `KnowledgeBase`: the in-memory mapping and the
durable file's content (`none` when no file exists). -/
structure KnowledgeBase where
  moves : List (String × Int)
  file : Option PyVal

/-- `KnowledgeBase.save`: rewrite the whole file from `self.moves`; when the
destination is not writable, `open` raises an `OSError` that is not caught. -/
def save (writable : Bool) (kb : KnowledgeBase) : Except PyError KnowledgeBase :=
  if writable then Except.ok { kb with file := some (save_value kb.moves) }
  else Except.error PyError.osError

/-- `KnowledgeBase.get_move`: `self.moves.get(board_key)`, a pure read. -/
def get_move (moves : List (String × Int)) (k : String) : Option Int :=
  dictGet moves k

/-- `KnowledgeBase.learn_move`: `self.moves[board_key] = position` and then
`self.save()`. The result pairs the state at return (or at the uncaught raise
from `save`) with the propagated exception, if any. -/
def learn_move (writable : Bool) (kb : KnowledgeBase) (k : String) (v : Int) :
    KnowledgeBase × Option PyError :=
  let kb1 : KnowledgeBase := { kb with moves := dictInsert kb.moves k v }
  match save writable kb1 with
  | Except.ok kb2 => (kb2, none)
  | Except.error e => (kb1, some e)

/-! ### Interactive move acquisition

The blocking `input(...)` loops are modelled as structural recursion over the
list of lines the user will type; `none` means the supplied lines ran out
before a valid move was entered (the Python loop would keep prompting). -/

/-- The 0-based position the loops compute from an accepted digit string:
`int(choice) - 1`. Only evaluated under a `pyIsDigit` guard. -/
def parsedPos (s : String) : Int := (digitsToNat (pyStrip s).data : Int) - 1

/-- `request_human_move`: repeat until a stripped input is all digits and its
0-based conversion passes `is_valid_move`; every rejected line is answered with
a re-prompt and the board is left untouched (the function never writes to it). -/
def request_human_move (board : List Cell) : List String → Option Int
  | [] => none
  | s :: rest =>
    if pyIsDigit (pyStrip s) then
      if is_valid_move board (parsedPos s) = some true then some (parsedPos s)
      else request_human_move board rest
    else request_human_move board rest

/-- `ask_for_learning`: repeat until a stripped input is all digits and valid;
then `kb.learn_move(game.board_key(), position)` and return the position. A
write failure in `save` propagates out (`Except.error`). -/
def ask_for_learning (writable : Bool) (board : List Cell) (kb : KnowledgeBase) :
    List String → Option (Except PyError (Int × KnowledgeBase))
  | [] => none
  | s :: rest =>
    if pyIsDigit (pyStrip s) then
      if is_valid_move board (parsedPos s) = some true then
        match learn_move writable kb (board_key board) (parsedPos s) with
        | (kb1, none) => some (Except.ok (parsedPos s, kb1))
        | (_, some e) => some (Except.error e)
      else ask_for_learning writable board kb rest
    else ask_for_learning writable board kb rest

/-- `ai_move`: look up the stored move for the current board key; use it only
when it exists and is still valid for the current board (the defensive
re-check), otherwise enter the teach flow. -/
def ai_move (writable : Bool) (board : List Cell) (kb : KnowledgeBase)
    (inputs : List String) : Option (Except PyError (Int × KnowledgeBase)) :=
  match get_move kb.moves (board_key board) with
  | some m =>
    if is_valid_move board m = some true then some (Except.ok (m, kb))
    else ask_for_learning writable board kb inputs
  | none => ask_for_learning writable board kb inputs

/-! ### The session loop's board invariant -/

/-- Number of cells holding mark `m`. -/
def markCount (board : List Cell) (m : Cell) : Nat :=
  board.countP (fun c => c = m)

/-- Number of non-empty cells. -/
def filledCount (board : List Cell) : Nat :=
  board.countP (fun c => c ≠ Cell.EMPTY)

/-- Turn alternation at the bottom of the `play_round` loop:
`TicTacToe.AI if current_player == TicTacToe.HUMAN else TicTacToe.HUMAN`. -/
def otherPlayer : Cell → Cell
  | Cell.X => Cell.O
  | _ => Cell.X

/-- The board trace of `play_round`: starting from `board` with `pl` to move,
the loop applies each validated position in `ps` with the mover's mark and
alternates the turn; `Plays pl board ps final` says the loop reaches `final`.
Both move sources (`request_human_move`, `ai_move`) only hand the loop
positions that pass `is_valid_move`, which is the hypothesis on each step. -/
inductive Plays : Cell → List Cell → List Int → List Cell → Prop
  | nil (pl : Cell) (board : List Cell) : Plays pl board [] board
  | cons {pl : Cell} {board : List Cell} {p : Int} {ps : List Int}
      {final : List Cell}
      (hv : is_valid_move board p = some true)
      (hrest : Plays (otherPlayer pl) (apply_move board p pl) ps final) :
      Plays pl board (p :: ps) final

/-! ### Helper lemmas -/

theorem dictGet_dictInsert (m : List (String × Int)) (k : String) (v : Int) :
    dictGet (dictInsert m k v) k = some v := by
  induction m with
  | nil => simp [dictInsert, dictGet]
  | cons hd tl ih =>
    obtain ⟨k', v'⟩ := hd
    by_cases hk : k' = k
    · simp [dictInsert, dictGet, hk]
    · simp [dictInsert, dictGet, hk, ih]

theorem cellChar_injective : Function.Injective cellChar := by
  intro a b h
  cases a <;> cases b <;> first | rfl | simp [cellChar] at h

/-! ### Claim theorems -/

/-- C3: immediately after `learn_move(key, m)`, a `get_move(key)` on the same
store returns `m` — this holds whether or not the accompanying `save`
succeeded, since the in-memory mapping is updated first. -/
theorem teach_then_lookup (writable : Bool) (kb : KnowledgeBase) (k : String)
    (v : Int) : get_move ((learn_move writable kb k v).1).moves k = some v := by
  cases writable <;> simp [learn_move, save, get_move, dictGet_dictInsert]

/-- C4: `board_key` is deterministic and injective on 9-cell boards — two
boards produce the same key exactly when they are the same board. -/
theorem board_key_injective (b₁ b₂ : List Cell)
    (h₁ : b₁.length = 9) (h₂ : b₂.length = 9) :
    board_key b₁ = board_key b₂ ↔ b₁ = b₂ := by
  constructor
  · intro h
    unfold board_key at h
    have hmap : b₁.map cellChar = b₂.map cellChar := congrArg String.data h
    exact List.map_injective_iff.mpr cellChar_injective hmap
  · intro h; rw [h]

/-- Witness for C4 at two concrete boards. -/
theorem board_key_injective_witness :
    board_key (Cell.X :: List.replicate 8 Cell.EMPTY) = board_key initialBoard ↔
      Cell.X :: List.replicate 8 Cell.EMPTY = initialBoard :=
  board_key_injective (Cell.X :: List.replicate 8 Cell.EMPTY) initialBoard
    (by decide) (by decide)

/-- C10: teaching is not atomic — when `save` raises, `learn_move` propagates
the exception (`OSError` here) while the in-memory mapping already contains
the new entry, and the durable file is unchanged. -/
theorem learn_move_not_atomic (kb : KnowledgeBase) (k : String) (v : Int) :
    (learn_move false kb k v).2 = some PyError.osError ∧
    get_move ((learn_move false kb k v).1).moves k = some v ∧
    ((learn_move false kb k v).1).file = kb.file := by
  refine ⟨rfl, ?_, rfl⟩
  simp [learn_move, save, get_move, dictGet_dictInsert]

theorem is_valid_move_extract {board : List Cell} {p : Int}
    (h : is_valid_move board p = some true) :
    0 ≤ p ∧ p < 9 ∧ board.get? p.toNat = some Cell.EMPTY := by
  unfold is_valid_move at h
  by_cases hr : 0 ≤ p ∧ p < 9
  · rw [if_pos hr] at h
    refine ⟨hr.1, hr.2, ?_⟩
    unfold pyGet at h
    have hneg : ¬ p < 0 := by omega
    simp only [hneg, if_false] at h
    by_cases hb : 0 ≤ p ∧ p < (board.length : Int)
    · rw [if_pos hb] at h
      cases hg : board.get? p.toNat with
      | none => rw [hg] at h; exact absurd h (by simp)
      | some c =>
        rw [hg] at h
        simp only [Option.some.injEq, decide_eq_true_eq] at h
        rw [h]
    · rw [if_neg hb] at h
      exact absurd h (by simp)
  · rw [if_neg hr] at h
    exact absurd h (by simp)

/-- C8: on a 9-cell board, `is_valid_move` always returns a Boolean (never
raises: the range test short-circuits the cell read), and that Boolean is
`true` exactly when the position is in `[0,8]` and the cell there is empty. -/
theorem is_valid_move_total (board : List Cell) (position : Int)
    (h9 : board.length = 9) :
    ∃ b : Bool, is_valid_move board position = some b ∧
      (b = true ↔ 0 ≤ position ∧ position < 9 ∧
        board.get? position.toNat = some Cell.EMPTY) := by
  unfold is_valid_move
  by_cases hr : 0 ≤ position ∧ position < 9
  · rw [if_pos hr]
    have hlt : position.toNat < board.length := by omega
    have hget : board.get? position.toNat = some (board.get ⟨position.toNat, hlt⟩) :=
      List.get?_eq_get hlt
    have hpy : pyGet board position = board.get? position.toNat := by
      have hneg : ¬ position < 0 := by omega
      have hb1 : 0 ≤ position := hr.1
      have hb2 : position < (board.length : Int) := by omega
      simp [pyGet, hneg, hb1, hb2]
    rw [hpy, hget]
    refine ⟨decide (board.get ⟨position.toNat, hlt⟩ = Cell.EMPTY), rfl, ?_⟩
    simp only [decide_eq_true_eq, hget, Option.some.injEq]
    exact ⟨fun hc => ⟨hr.1, hr.2, hc⟩, fun hc => hc.2.2⟩
  · rw [if_neg hr]
    exact ⟨false, rfl, fun hc => (Bool.false_ne_true hc).elim,
      fun hc => absurd ⟨hc.1, hc.2.1⟩ hr⟩

/-- Witness for C8 at the empty board and position 4. -/
theorem is_valid_move_total_witness :
    ∃ b : Bool, is_valid_move initialBoard 4 = some b ∧
      (b = true ↔ 0 ≤ (4 : Int) ∧ (4 : Int) < 9 ∧
        initialBoard.get? (Int.toNat 4) = some Cell.EMPTY) :=
  is_valid_move_total initialBoard 4 (by decide)

theorem is_valid_move_neg_one (board : List Cell) :
    is_valid_move board (-1) = some false := by
  unfold is_valid_move
  rw [if_neg (by omega)]

theorem rhm_sound (board : List Cell) (inputs : List String) :
    ∀ p : Int, request_human_move board inputs = some p →
      is_valid_move board p = some true := by
  induction inputs with
  | nil => intro p h; exact absurd h (by simp [request_human_move])
  | cons s rest ih =>
    intro p h
    unfold request_human_move at h
    by_cases hd : pyIsDigit (pyStrip s) = true
    · rw [if_pos hd] at h
      by_cases hv : is_valid_move board (parsedPos s) = some true
      · rw [if_pos hv] at h
        cases h
        exact hv
      · rw [if_neg hv] at h
        exact ih p h
    · rw [if_neg hd] at h
      exact ih p h

theorem rhm_skip (board : List Cell) (s : String) (rest : List String)
    (h : pyIsDigit (pyStrip s) = false ∨
      is_valid_move board (parsedPos s) ≠ some true) :
    request_human_move board (s :: rest) = request_human_move board rest := by
  cases h with
  | inl hd =>
    have hd' : ¬ (pyIsDigit (pyStrip s) = true) := by simp [hd]
    simp only [request_human_move, if_neg hd']
  | inr hv =>
    by_cases hd : pyIsDigit (pyStrip s) = true
    · simp only [request_human_move, if_pos hd, if_neg hv]
    · simp only [request_human_move, if_neg hd]

/-- C7: the human-move prompt rejects any non-digit line and any digit line
whose 0-based conversion fails `is_valid_move` (in particular the out-of-range
entry `"0"`), continuing with the remaining input and leaving the board
untouched (the function never writes to the board); a returned position always
satisfies `is_valid_move` on the current board. -/
theorem request_human_move_spec :
    (∀ (board : List Cell) (inputs : List String) (p : Int),
       request_human_move board inputs = some p →
       is_valid_move board p = some true) ∧
    (∀ (board : List Cell) (s : String) (rest : List String),
       pyIsDigit (pyStrip s) = false ∨
         is_valid_move board (parsedPos s) ≠ some true →
       request_human_move board (s :: rest) = request_human_move board rest) ∧
    (∀ (board : List Cell) (rest : List String),
       request_human_move board ("0" :: rest) = request_human_move board rest) := by
  refine ⟨fun board inputs => rhm_sound board inputs, rhm_skip, ?_⟩
  intro board rest
  apply rhm_skip
  right
  have hp : parsedPos "0" = -1 := by decide
  rw [hp, is_valid_move_neg_one]
  simp

/-- Witness for C7: a concrete accepted move and the rejected `"0"` entry. -/
theorem request_human_move_spec_witness :
    is_valid_move initialBoard 4 = some true ∧
    request_human_move initialBoard ["0", "5"] =
      request_human_move initialBoard ["5"] :=
  ⟨request_human_move_spec.1 initialBoard ["0", "5"] 4 (by decide),
   request_human_move_spec.2.2 initialBoard ["5"]⟩

theorem convertItems_ok_of_all (items : List (String × PyVal))
    (h : ∀ kv ∈ items, ∃ n, pyInt kv.2 = Except.ok n) :
    ∃ m, convertItems items = Except.ok m := by
  induction items with
  | nil => exact ⟨[], rfl⟩
  | cons kv rest ih =>
    obtain ⟨n, hn⟩ := h kv (List.mem_cons_self kv rest)
    obtain ⟨m, hm⟩ := ih (fun kv' hkv' => h kv' (List.mem_cons_of_mem kv hkv'))
    obtain ⟨k, v⟩ := kv
    exact ⟨(k, n) :: m, by simp [convertItems, hn, hm]⟩

theorem convertItems_error_mem (items : List (String × PyVal)) (e : PyError)
    (h : convertItems items = Except.error e) :
    ∃ kv ∈ items, pyInt kv.2 = Except.error e := by
  induction items with
  | nil => exact absurd h (by simp [convertItems])
  | cons kv rest ih =>
    obtain ⟨k, v⟩ := kv
    unfold convertItems at h
    cases hv : pyInt v with
    | ok n =>
      rw [hv] at h
      cases hr : convertItems rest with
      | ok m => rw [hr] at h; exact absurd h (by simp)
      | error e' =>
        rw [hr] at h
        simp only [Except.error.injEq] at h
        obtain ⟨kv', hmem, hkv'⟩ := ih (h ▸ hr)
        exact ⟨kv', List.mem_cons_of_mem _ hmem, hkv'⟩
    | error e' =>
      rw [hv] at h
      simp only [Except.error.injEq] at h
      exact ⟨(k, v), List.mem_cons_self _ _, h ▸ hv⟩

theorem pyIntOfStr_error (s : String) (e : PyError)
    (h : pyIntOfStr s = Except.error e) : e = PyError.valueError := by
  unfold pyIntOfStr at h
  split at h <;> try (split at h)
  all_goals simp_all

theorem pyInt_error (v : PyVal) (e : PyError)
    (h : pyInt v = Except.error e) :
    e = PyError.valueError ∨ e = PyError.typeError := by
  cases v with
  | pstr s => exact Or.inl (pyIntOfStr_error s e h)
  | pint n => exact absurd h (by simp [pyInt])
  | pbool b => exact absurd h (by simp [pyInt])
  | pnull => simp only [pyInt, Except.error.injEq] at h; exact Or.inr h.symm
  | plist l => simp only [pyInt, Except.error.injEq] at h; exact Or.inr h.symm
  | pobj l => simp only [pyInt, Except.error.injEq] at h; exact Or.inr h.symm

/-- C2 counterexample: a file whose text is the valid JSON array `[]` makes
`_load` raise an uncaught `AttributeError` from `data.items()`, so the load
does propagate an error to the caller. -/
theorem load_moves_raises_on_nonobject :
    load_moves (ReadOutcome.value (PyVal.plist [])) =
      Except.error PyError.attributeError := rfl

/-- C2 (amended): `_load` swallows the failures it anticipates — absent file,
`OSError`, JSON-syntax errors, and `ValueError` from `int(value)` — yielding
the parsed mapping or an empty one; but JSON text parsing to a non-object
raises an uncaught `AttributeError`, and an object value of non-convertible
type (null, array, object) raises an uncaught `TypeError`. -/
theorem load_moves_amended :
    (load_moves ReadOutcome.absent = Except.ok []) ∧
    (load_moves ReadOutcome.osError = Except.ok []) ∧
    (load_moves ReadOutcome.decodeError = Except.ok []) ∧
    (∀ v : PyVal, (∀ items, v ≠ PyVal.pobj items) →
       load_moves (ReadOutcome.value v) = Except.error PyError.attributeError) ∧
    (∀ items : List (String × PyVal),
       (∀ kv ∈ items, ∃ n, pyInt kv.2 = Except.ok n) →
       ∃ m, load_moves (ReadOutcome.value (PyVal.pobj items)) = Except.ok m) ∧
    (∀ (items : List (String × PyVal)) (e : PyError),
       load_moves (ReadOutcome.value (PyVal.pobj items)) = Except.error e →
       e = PyError.typeError ∧
         ∃ kv ∈ items, pyInt kv.2 = Except.error PyError.typeError) := by
  refine ⟨rfl, rfl, rfl, ?_, ?_, ?_⟩
  · intro v hv
    cases v with
    | pobj items => exact absurd rfl (hv items)
    | pstr s => rfl
    | pint n => rfl
    | pbool b => rfl
    | pnull => rfl
    | plist l => rfl
  · intro items hall
    obtain ⟨m, hm⟩ := convertItems_ok_of_all items hall
    exact ⟨m, by simp [load_moves, hm]⟩
  · intro items e h
    simp only [load_moves] at h
    cases hc : convertItems items with
    | ok m => rw [hc] at h; exact absurd h (by simp)
    | error e' =>
      rw [hc] at h
      cases e' with
      | valueError => exact absurd h (by simp)
      | typeError =>
        simp only [Except.error.injEq] at h
        subst h
        exact ⟨rfl, convertItems_error_mem items _ hc⟩
      | attributeError =>
        obtain ⟨kv, _, hkv⟩ := convertItems_error_mem items _ hc
        rcases pyInt_error kv.2 _ hkv with h' | h' <;> exact absurd h' (by simp)
      | osError =>
        obtain ⟨kv, _, hkv⟩ := convertItems_error_mem items _ hc
        rcases pyInt_error kv.2 _ hkv with h' | h' <;> exact absurd h' (by simp)

/-- Witness for the amended C2 at concrete file contents. -/
theorem load_moves_amended_witness :
    load_moves (ReadOutcome.value PyVal.pnull) =
      Except.error PyError.attributeError ∧
    ∃ m, load_moves (ReadOutcome.value (PyVal.pobj [("a", PyVal.pint 3)])) =
      Except.ok m :=
  ⟨load_moves_amended.2.2.2.1 PyVal.pnull (fun _ h => PyVal.noConfusion h),
   load_moves_amended.2.2.2.2.1 [("a", PyVal.pint 3)]
     (by rintro kv hkv
         rcases List.mem_singleton.mp hkv with rfl
         exact ⟨3, rfl⟩)⟩

theorem convertItems_map_pint (l : List (String × Int)) :
    convertItems (l.map (fun p => (p.1, PyVal.pint p.2))) = Except.ok l := by
  induction l with
  | nil => rfl
  | cons p rest ih =>
    obtain ⟨k, v⟩ := p
    simp [convertItems, pyInt, ih]

theorem dictGet_eq_none_iff (l : List (String × Int)) (k : String) :
    dictGet l k = none ↔ k ∉ l.map Prod.fst := by
  induction l with
  | nil => simp [dictGet]
  | cons p rest ih =>
    obtain ⟨k', v'⟩ := p
    by_cases hk : k' = k
    · subst hk
      simp [dictGet]
    · simp [dictGet, hk, ih, Ne.symm hk]

theorem dictGet_mem (l : List (String × Int)) (k : String) (v : Int)
    (h : dictGet l k = some v) : (k, v) ∈ l := by
  induction l with
  | nil => exact absurd h (by simp [dictGet])
  | cons p rest ih =>
    obtain ⟨k', v'⟩ := p
    unfold dictGet at h
    by_cases hk : k' = k
    · rw [if_pos hk] at h
      cases h
      exact hk ▸ List.mem_cons_self _ _
    · rw [if_neg hk] at h
      exact List.mem_cons_of_mem _ (ih h)

theorem mem_dictGet (l : List (String × Int)) (k : String) (v : Int)
    (hnd : (l.map Prod.fst).Nodup) (h : (k, v) ∈ l) : dictGet l k = some v := by
  induction l with
  | nil => exact absurd h (by simp)
  | cons p rest ih =>
    obtain ⟨k', v'⟩ := p
    rcases List.mem_cons.mp h with heq | hmem
    · cases heq
      simp [dictGet]
    · have hk : k' ≠ k := by
        intro hkk
        subst hkk
        exact (List.nodup_cons.mp hnd).1
          (List.mem_map.mpr ⟨(k', v), hmem, rfl⟩)
      rw [dictGet, if_neg hk]
      exact ih (List.nodup_cons.mp hnd).2 hmem

theorem dictGet_perm {l₁ l₂ : List (String × Int)} (h : l₁.Perm l₂)
    (hnd : (l₂.map Prod.fst).Nodup) (k : String) :
    dictGet l₁ k = dictGet l₂ k := by
  have hnd₁ : (l₁.map Prod.fst).Nodup := ((h.map Prod.fst).nodup_iff).mpr hnd
  cases h₁ : dictGet l₁ k with
  | none =>
    symm
    rw [dictGet_eq_none_iff] at h₁ ⊢
    intro hmem
    exact h₁ (((h.map Prod.fst).mem_iff).mpr hmem)
  | some v =>
    exact (mem_dictGet l₂ k v hnd (h.mem_iff.mp (dictGet_mem l₁ k v h₁))).symm

/-- C5: saving the knowledge mapping and loading it back yields a mapping with
exactly the same key-value pairs (the file stores the entries in sorted key
order, so only the order may differ). -/
theorem save_load_roundtrip (m : List (String × Int))
    (hnd : (m.map Prod.fst).Nodup) :
    ∃ m', load_moves (ReadOutcome.value (save_value m)) = Except.ok m' ∧
      ∀ k, dictGet m' k = dictGet m k := by
  refine ⟨sortKeys m, ?_, fun k => ?_⟩
  · simp [load_moves, save_value, convertItems_map_pint]
  · exact dictGet_perm (List.perm_insertionSort _ m) hnd k

/-- Witness for C5 at a concrete two-entry mapping. -/
theorem save_load_roundtrip_witness :
    ∃ m', load_moves (ReadOutcome.value (save_value [("b", 2), ("a", 1)])) =
        Except.ok m' ∧
      ∀ k, dictGet m' k = dictGet [("b", 2), ("a", 1)] k :=
  save_load_roundtrip [("b", 2), ("a", 1)] (by decide)

theorem afl_spec (board : List Cell) (kb : KnowledgeBase) (inputs : List String) :
    ∀ (p : Int) (kb1 : KnowledgeBase),
      ask_for_learning true board kb inputs = some (Except.ok (p, kb1)) →
      is_valid_move board p = some true ∧
      kb1.moves = dictInsert kb.moves (board_key board) p ∧
      get_move kb1.moves (board_key board) = some p := by
  induction inputs with
  | nil => intro p kb1 h; exact absurd h (by simp [ask_for_learning])
  | cons s rest ih =>
    intro p kb1 h
    unfold ask_for_learning at h
    by_cases hd : pyIsDigit (pyStrip s) = true
    · rw [if_pos hd] at h
      by_cases hv : is_valid_move board (parsedPos s) = some true
      · rw [if_pos hv] at h
        have hl : learn_move true kb (board_key board) (parsedPos s) =
            ({ moves := dictInsert kb.moves (board_key board) (parsedPos s),
               file := some (save_value
                 (dictInsert kb.moves (board_key board) (parsedPos s))) },
             none) := rfl
        rw [hl] at h
        simp only [Option.some.injEq, Except.ok.injEq, Prod.mk.injEq] at h
        obtain ⟨hp, hkb⟩ := h
        subst hp
        subst hkb
        exact ⟨hv, rfl, by simp [get_move, dictGet_dictInsert]⟩
      · rw [if_neg hv] at h
        exact ih p kb1 h
    · rw [if_neg hd] at h
      exact ih p kb1 h

/-- C6: `ai_move` returns the stored move for the current board key exactly
when it exists and is still valid for the current board (the defensive
re-check); otherwise it enters the teach flow, records the human-supplied
valid position via `learn_move`, and returns it. A returned position always
satisfies `is_valid_move` on the current board. -/
theorem ai_move_spec :
    (∀ (board : List Cell) (kb : KnowledgeBase) (inputs : List String) (m : Int),
       get_move kb.moves (board_key board) = some m →
       is_valid_move board m = some true →
       ai_move true board kb inputs = some (Except.ok (m, kb))) ∧
    (∀ (board : List Cell) (kb : KnowledgeBase) (inputs : List String)
       (p : Int) (kb1 : KnowledgeBase),
       ai_move true board kb inputs = some (Except.ok (p, kb1)) →
       is_valid_move board p = some true ∧
       ((get_move kb.moves (board_key board) = some p ∧ kb1 = kb) ∨
        ((∀ m, get_move kb.moves (board_key board) = some m →
            is_valid_move board m ≠ some true) ∧
         kb1.moves = dictInsert kb.moves (board_key board) p ∧
         get_move kb1.moves (board_key board) = some p))) := by
  constructor
  · intro board kb inputs m hm hv
    simp [ai_move, hm, hv]
  · intro board kb inputs p kb1 h
    cases hm : get_move kb.moves (board_key board) with
    | none =>
      have hred : ai_move true board kb inputs =
          ask_for_learning true board kb inputs := by
        simp [ai_move, hm]
      rw [hred] at h
      obtain ⟨h1, h2, h3⟩ := afl_spec board kb inputs p kb1 h
      refine ⟨h1, Or.inr ⟨?_, h2, h3⟩⟩
      intro m hm'
      exact Option.noConfusion hm'
    | some m =>
      by_cases hv : is_valid_move board m = some true
      · have hred : ai_move true board kb inputs =
            some (Except.ok (m, kb)) := by
          simp [ai_move, hm, hv]
        rw [hred] at h
        simp only [Option.some.injEq, Except.ok.injEq, Prod.mk.injEq] at h
        obtain ⟨hp, hkb⟩ := h
        subst hp
        exact ⟨hv, Or.inl ⟨rfl, hkb.symm⟩⟩
      · have hred : ai_move true board kb inputs =
            ask_for_learning true board kb inputs := by
          simp [ai_move, hm, hv]
        rw [hred] at h
        obtain ⟨h1, h2, h3⟩ := afl_spec board kb inputs p kb1 h
        refine ⟨h1, Or.inr ⟨?_, h2, h3⟩⟩
        intro m' hm'
        simp only [Option.some.injEq] at hm'
        exact hm' ▸ hv

/-- Witness for C6: a stored, still-valid move is returned unchanged. -/
theorem ai_move_spec_witness :
    ai_move true initialBoard ⟨[(board_key initialBoard, 4)], none⟩ [] =
      some (Except.ok (4, ⟨[(board_key initialBoard, 4)], none⟩)) :=
  ai_move_spec.1 initialBoard ⟨[(board_key initialBoard, 4)], none⟩ [] 4
    (by decide) (by decide)

theorem countP_set (pr : Cell → Bool) (a : Cell) :
    ∀ (l : List Cell) (i : Nat) (h : i < l.length),
      (l.set i a).countP pr + (if pr (l.get ⟨i, h⟩) then 1 else 0)
        = l.countP pr + (if pr a then 1 else 0)
  | [], i, h => by simp at h
  | x :: xs, 0, _ => by
    simp only [List.set, List.get, List.countP_cons]
    omega
  | x :: xs, n + 1, h => by
    have hn : n < xs.length := Nat.lt_of_succ_lt_succ (by simpa using h)
    have ih := countP_set pr a xs n hn
    simp only [List.set, List.get, List.countP_cons]
    omega

theorem apply_move_counts {board : List Cell} {p : Int} (mark : Cell)
    (hv : is_valid_move board p = some true) :
    (mark ≠ Cell.EMPTY →
      markCount (apply_move board p mark) mark = markCount board mark + 1) ∧
    (∀ m, m ≠ mark → m ≠ Cell.EMPTY →
      markCount (apply_move board p mark) m = markCount board m) ∧
    (mark ≠ Cell.EMPTY →
      filledCount (apply_move board p mark) = filledCount board + 1) := by
  obtain ⟨hp0, _, hget⟩ := is_valid_move_extract hv
  have hlt : p.toNat < board.length := by
    have := List.get?_eq_some.mp hget
    exact this.1
  have hgetv : board.get ⟨p.toNat, hlt⟩ = Cell.EMPTY := by
    have := List.get?_eq_some.mp hget
    obtain ⟨h', he⟩ := this
    simpa using he
  have happ : apply_move board p mark = board.set p.toNat mark := by
    unfold apply_move
    have : ¬ p < 0 := by omega
    simp [this]
  refine ⟨?_, ?_, ?_⟩
  · intro hm
    have := countP_set (fun c => c = mark) mark board p.toNat hlt
    rw [hgetv] at this
    have hEm : (decide (Cell.EMPTY = mark) : Bool) = false := by
      cases mark <;> simp_all
    rw [happ]
    unfold markCount
    simp only [hEm, decide_True, if_true, if_false] at this
    simpa using this
  · intro m hmm hme
    have := countP_set (fun c => c = m) mark board p.toNat hlt
    rw [hgetv] at this
    have hEm : (decide (Cell.EMPTY = m) : Bool) = false := by
      cases m <;> simp_all
    have hMm : (decide (mark = m) : Bool) = false := by
      simp [Ne.symm hmm]
    rw [happ]
    unfold markCount
    simp only [hEm, hMm, if_false] at this
    simpa using this
  · intro hm
    have := countP_set (fun c => c ≠ Cell.EMPTY) mark board p.toNat hlt
    rw [hgetv] at this
    have hE : (decide (Cell.EMPTY ≠ Cell.EMPTY) : Bool) = false := by simp
    have hM : (decide (mark ≠ Cell.EMPTY) : Bool) = true := by simp [hm]
    rw [happ]
    unfold filledCount
    simp only [hE, hM, if_true, if_false] at this
    simpa using this

theorem otherPlayer_ne_empty (pl : Cell) : otherPlayer pl ≠ Cell.EMPTY := by
  cases pl <;> simp [otherPlayer]

theorem plays_filledCount {pl : Cell} {board : List Cell} {ps : List Int}
    {final : List Cell} (hpl : pl ≠ Cell.EMPTY)
    (h : Plays pl board ps final) :
    filledCount final = filledCount board + ps.length := by
  induction h with
  | nil => simp
  | cons hv hrest ih =>
    rename_i pl' board' p ps' final'
    have hstep := ((apply_move_counts pl' hv).2.2) hpl
    have := ih (otherPlayer_ne_empty pl')
    rw [this, hstep]
    simp
    omega

/-- C9: every applied move of the session loop writes one mark into a
previously empty cell: the mover's count rises by one, the other mark's count
is unchanged, and along any round played from the fresh board the number of
non-empty cells equals the number of moves played. -/
theorem session_loop_invariant :
    (∀ (board : List Cell) (p : Int) (mark : Cell), mark ≠ Cell.EMPTY →
       is_valid_move board p = some true →
       markCount (apply_move board p mark) mark = markCount board mark + 1 ∧
       (∀ m, m ≠ mark → m ≠ Cell.EMPTY →
         markCount (apply_move board p mark) m = markCount board m) ∧
       filledCount (apply_move board p mark) = filledCount board + 1) ∧
    (∀ (pl : Cell) (ps : List Int) (final : List Cell), pl ≠ Cell.EMPTY →
       Plays pl initialBoard ps final → filledCount final = ps.length) := by
  constructor
  · intro board p mark hm hv
    obtain ⟨h1, h2, h3⟩ := apply_move_counts mark hv
    exact ⟨h1 hm, h2, h3 hm⟩
  · intro pl ps final hpl h
    have := plays_filledCount hpl h
    rw [this]
    have : filledCount initialBoard = 0 := by decide
    omega

/-- Witness for C9: the human plays the centre of the fresh board. -/
theorem session_loop_invariant_witness :
    markCount (apply_move initialBoard 4 Cell.X) Cell.X =
        markCount initialBoard Cell.X + 1 ∧
    filledCount (apply_move initialBoard 4 Cell.X) = [(4 : Int)].length :=
  ⟨(session_loop_invariant.1 initialBoard 4 Cell.X (by decide) (by decide)).1,
   session_loop_invariant.2 Cell.X [4] (apply_move initialBoard 4 Cell.X)
     (by decide)
     (Plays.cons (by decide) (Plays.nil (otherPlayer Cell.X)
       (apply_move initialBoard 4 Cell.X)))⟩

theorem lineWin_eq_some_iff (board : List Cell) (p : Nat × Nat × Nat)
    (m : Cell) :
    lineWin board p = some m ↔ (lineAll board m p ∧ m ≠ Cell.EMPTY) := by
  unfold lineWin lineAll
  by_cases hc : getCell board p.1 = getCell board p.2.1 ∧
      getCell board p.2.1 = getCell board p.2.2 ∧
      getCell board p.2.2 ≠ Cell.EMPTY
  · rw [if_pos hc]
    simp only [Option.some.injEq]
    constructor
    · intro h
      subst h
      exact ⟨⟨rfl, hc.1.symm, (hc.1.trans hc.2.1).symm⟩,
        fun he => hc.2.2 (by rw [← hc.2.1, ← hc.1, he])⟩
    · intro ⟨⟨h1, _, _⟩, _⟩
      exact h1
  · rw [if_neg hc]
    constructor
    · intro h
      exact Option.noConfusion h
    · rintro ⟨⟨h1, h2, h3⟩, hne⟩
      exact absurd ⟨h1.trans h2.symm, h2.trans h3.symm,
        by rw [h3]; exact hne⟩ hc

theorem scanPatterns_eq_some (board : List Cell)
    (l : List (Nat × Nat × Nat)) (m : Cell)
    (h : scanPatterns board l = some m) :
    ∃ p ∈ l, lineWin board p = some m := by
  induction l with
  | nil => exact absurd h (by simp [scanPatterns])
  | cons q rest ih =>
    unfold scanPatterns at h
    cases hq : lineWin board q with
    | some m' =>
      rw [hq] at h
      simp only [Option.some.injEq] at h
      exact ⟨q, List.mem_cons_self _ _, h ▸ hq⟩
    | none =>
      rw [hq] at h
      obtain ⟨p, hmem, hp⟩ := ih h
      exact ⟨p, List.mem_cons_of_mem _ hmem, hp⟩

theorem scanPatterns_eq_none_iff (board : List Cell)
    (l : List (Nat × Nat × Nat)) :
    scanPatterns board l = none ↔ ∀ p ∈ l, lineWin board p = none := by
  induction l with
  | nil => simp [scanPatterns]
  | cons q rest ih =>
    unfold scanPatterns
    cases hq : lineWin board q with
    | some m' => simp [hq]
    | none => simp [hq, ih]

theorem scanPatterns_isSome (board : List Cell)
    (l : List (Nat × Nat × Nat)) (p : Nat × Nat × Nat) (m : Cell)
    (hmem : p ∈ l) (hp : lineWin board p = some m) :
    ∃ m', scanPatterns board l = some m' := by
  induction l with
  | nil => exact absurd hmem (by simp)
  | cons q rest ih =>
    unfold scanPatterns
    cases hq : lineWin board q with
    | some m' => exact ⟨m', rfl⟩
    | none =>
      rcases List.mem_cons.mp hmem with heq | hmem'
      · exact absurd (heq ▸ hp) (by simp [hq])
      · exact ih hmem'

theorem winsLine_iff_lineWin (board : List Cell) (m : Cell) :
    winsLine board m ↔ ∃ p ∈ WIN_PATTERNS, lineWin board p = some m := by
  unfold winsLine
  constructor
  · rintro ⟨hne, p, hmem, hall⟩
    exact ⟨p, hmem, (lineWin_eq_some_iff board p m).mpr ⟨hall, hne⟩⟩
  · rintro ⟨p, hmem, hp⟩
    obtain ⟨hall, hne⟩ := (lineWin_eq_some_iff board p m).mp hp
    exact ⟨hne, p, hmem, hall⟩

/-- C1: `check_winner` returns a mark exactly when some of the 8 win lines is
fully occupied by a non-empty mark (and the returned mark does occupy such a
line); it returns draw (`"Empate"`) exactly when no line wins and no cell is
empty; and it returns `None` exactly when no line wins and some cell is
empty. -/
theorem check_winner_spec (board : List Cell) (h9 : board.length = 9) :
    (∀ m, check_winner board = some (Outcome.mark m) → winsLine board m) ∧
    ((∃ m, winsLine board m) →
      ∃ m, check_winner board = some (Outcome.mark m)) ∧
    (check_winner board = some Outcome.empate ↔
      (∀ m, ¬ winsLine board m) ∧ Cell.EMPTY ∉ board) ∧
    (check_winner board = none ↔
      (∀ m, ¬ winsLine board m) ∧ Cell.EMPTY ∈ board) := by
  have hnone : (∀ m, ¬ winsLine board m) ↔
      scanPatterns board WIN_PATTERNS = none := by
    rw [scanPatterns_eq_none_iff]
    constructor
    · intro h p hmem
      cases hq : lineWin board p with
      | none => rfl
      | some m =>
        exact absurd ((winsLine_iff_lineWin board m).mpr ⟨p, hmem, hq⟩) (h m)
    · intro h m hw
      obtain ⟨p, hmem, hp⟩ := (winsLine_iff_lineWin board m).mp hw
      rw [h p hmem] at hp
      exact Option.noConfusion hp
  refine ⟨?_, ?_, ?_, ?_⟩
  · intro m h
    unfold check_winner at h
    cases hs : scanPatterns board WIN_PATTERNS with
    | some m' =>
      rw [hs] at h
      simp only [Option.some.injEq, Outcome.mark.injEq] at h
      obtain ⟨p, hmem, hp⟩ := scanPatterns_eq_some board WIN_PATTERNS m' hs
      exact (winsLine_iff_lineWin board m).mpr ⟨p, hmem, h ▸ hp⟩
    | none =>
      rw [hs] at h
      by_cases he : Cell.EMPTY ∈ board
      · rw [if_pos he] at h
        exact Option.noConfusion h
      · rw [if_neg he] at h
        simp at h
  · rintro ⟨m, hw⟩
    obtain ⟨p, hmem, hp⟩ := (winsLine_iff_lineWin board m).mp hw
    obtain ⟨m', hm'⟩ := scanPatterns_isSome board WIN_PATTERNS p m hmem hp
    exact ⟨m', by simp [check_winner, hm']⟩
  · rw [hnone]
    unfold check_winner
    cases hs : scanPatterns board WIN_PATTERNS with
    | some m' =>
      constructor
      · intro hcon
        simp at hcon
      · rintro ⟨hcon, _⟩
        exact Option.noConfusion hcon
    | none =>
      by_cases he : Cell.EMPTY ∈ board
      · rw [if_pos he]
        simp [he]
      · rw [if_neg he]
        simp [he]
  · rw [hnone]
    unfold check_winner
    cases hs : scanPatterns board WIN_PATTERNS with
    | some m' =>
      constructor
      · intro hcon
        exact Option.noConfusion hcon
      · rintro ⟨hcon, _⟩
        exact Option.noConfusion hcon
    | none =>
      by_cases he : Cell.EMPTY ∈ board
      · rw [if_pos he]
        simp [he]
      · rw [if_neg he]
        simp [he]

/-- Witness for C1 at a board with a completed top row. -/
theorem check_winner_spec_witness :
    winsLine (Cell.X :: Cell.X :: Cell.X :: List.replicate 6 Cell.EMPTY)
      Cell.X :=
  (check_winner_spec (Cell.X :: Cell.X :: Cell.X :: List.replicate 6 Cell.EMPTY)
    (by decide)).1 Cell.X (by decide)

end GatoExperto
